import Mathlib

/-!
Verification of the AgentSphere multi-agent strategic simulation engine.

The definitions below are a shallow embedding of the Python sources:
`agentsphere/environment/business_env.py` (bounded state store),
`agentsphere/agents/base_agent.py` (proposal value type),
`agentsphere/negotiation/engine.py` (weighted-voting consensus engine) and
`agentsphere/simulation/simulator.py` (round loop).  Python floats are
modelled as rationals (`ℚ`); Python `dict`s keyed by strings are modelled as
association lists with first-match lookup (a real `dict` has unique keys, so
first-match lookup coincides with `dict` access); Python's builtin
`round(x, n)` is modelled as decimal round-half-even at `n` digits.
Human-readable summary strings and the free-form `metadata` dictionary are
not modelled; every numeric and structural component is.
-/

set_option autoImplicit false

namespace AgentSphere

/-- First-match association-list lookup, the model of `d[k]` / `k in d` on a
Python `dict` with string keys. -/
def alookup (l : List (String × ℚ)) (k : String) : Option ℚ :=
  (l.find? (fun e => e.1 = k)).map (fun e => e.2)

/-- The model of `d.get(k, default)`. -/
def alookupD (l : List (String × ℚ)) (k : String) (dflt : ℚ) : ℚ :=
  (alookup l k).getD dflt

/-- Clamping to `[lo, hi]`: the model of `max(lo, min(hi, raw))` in
`BusinessEnvironment.apply_deltas`. -/
def clamp (lo hi x : ℚ) : ℚ :=
  max lo (min hi x)

/-- Round a rational to the nearest integer, ties to even: the model of
Python's builtin `round` on our idealised (exact) numbers. -/
def halfEvenRound (q : ℚ) : ℤ :=
  let f := ⌊q⌋
  let frac := q - (f : ℚ)
  if frac < 1/2 then f
  else if 1/2 < frac then f + 1
  else if 2 ∣ f then f else f + 1

/-- The model of Python's `round(q, n)` (round-half-even at `n` decimal
digits). -/
def pyRound (n : ℕ) (q : ℚ) : ℚ :=
  (halfEvenRound (q * (10 : ℚ) ^ n) : ℚ) / (10 : ℚ) ^ n

/-! ## The environment (`business_env.py`) -/

/-- `EnvironmentState`: the immutable snapshot dataclass.  Field order is the
dataclass order, which is also the iteration order of `asdict` used by
`apply_deltas`. -/
structure EnvironmentState where
  revenue : ℚ
  cost : ℚ
  risk_score : ℚ
  churn : ℚ
  marketing_budget : ℚ
  growth_rate : ℚ
  volatility : ℚ
  round_number : ℤ := 0
  deriving Repr, DecidableEq

/-- `BusinessEnvironment._BOUNDS`: the hard bounds table. -/
def BOUNDS : List (String × (ℚ × ℚ)) :=
  [("revenue", (1, 1000000000)),
   ("cost", (1, 1000000000)),
   ("risk_score", (0, 1)),
   ("churn", (0, 1)),
   ("marketing_budget", (0, 100000000)),
   ("growth_rate", (-(1/2), 2)),
   ("volatility", (0, 1))]

/-- `self._BOUNDS.get(key, (-1e12, 1e12))`. -/
def boundFor (key : String) : ℚ × ℚ :=
  ((BOUNDS.find? (fun e => e.1 = key)).map (fun e => e.2)).getD
    (-(1000000000000 : ℚ), 1000000000000)

/-- The pre-clamp value computed by `apply_deltas` for one field:
`value * (1.0 + delta + noise * (1 if delta >= 0 else -1))`. -/
def rawValue (old delta noise : ℚ) : ℚ :=
  old * (1 + delta + noise * (if 0 ≤ delta then 1 else -1))

/-- One field of `apply_deltas`: look up the delta (default `0.0`), form the
raw value, clamp to the field's bound. -/
def applyField (ds : List (String × ℚ)) (noise : ℚ) (key : String) (old : ℚ) : ℚ :=
  let delta := alookupD ds key 0
  let b := boundFor key
  clamp b.1 b.2 (rawValue old delta noise)

/-- `BusinessEnvironment`: current state, round counter, snapshot history.
`initial` records the constructor argument used by `reset`. -/
structure BusinessEnvironment where
  initial : EnvironmentState
  state : EnvironmentState
  round : ℤ
  history : List EnvironmentState
  deriving Repr, DecidableEq

/-- The constructor: state from the (merged) initial values, round `0`,
empty history. -/
def mkBusinessEnvironment (init : EnvironmentState) : BusinessEnvironment :=
  { initial := init
    state := { init with round_number := 0 }
    round := 0
    history := [] }

/-- `BusinessEnvironment.apply_deltas`: apply relative deltas (with the
signed noise term) to every numeric field, clamp each to its bound, advance
the round, append the new state to the history.  Unknown delta keys are
ignored because only the seven dataclass fields are read. -/
def BusinessEnvironment.apply_deltas (env : BusinessEnvironment)
    (ds : List (String × ℚ)) (noise : ℚ) : BusinessEnvironment :=
  let s := env.state
  let r := env.round + 1
  let s' : EnvironmentState :=
    { revenue := applyField ds noise "revenue" s.revenue
      cost := applyField ds noise "cost" s.cost
      risk_score := applyField ds noise "risk_score" s.risk_score
      churn := applyField ds noise "churn" s.churn
      marketing_budget := applyField ds noise "marketing_budget" s.marketing_budget
      growth_rate := applyField ds noise "growth_rate" s.growth_rate
      volatility := applyField ds noise "volatility" s.volatility
      round_number := r }
  { env with state := s', round := r, history := env.history ++ [s'] }

/-- `BusinessEnvironment.snapshot`: the current state with `round_number`
overridden by the round counter. -/
def BusinessEnvironment.snapshot (env : BusinessEnvironment) : EnvironmentState :=
  { env.state with round_number := env.round }

/-- A state satisfies the configured bounds table on every numeric field. -/
def stateInBounds (s : EnvironmentState) : Prop :=
  1 ≤ s.revenue ∧ s.revenue ≤ 1000000000 ∧
  1 ≤ s.cost ∧ s.cost ≤ 1000000000 ∧
  0 ≤ s.risk_score ∧ s.risk_score ≤ 1 ∧
  0 ≤ s.churn ∧ s.churn ≤ 1 ∧
  0 ≤ s.marketing_budget ∧ s.marketing_budget ≤ 100000000 ∧
  -(1/2) ≤ s.growth_rate ∧ s.growth_rate ≤ 2 ∧
  0 ≤ s.volatility ∧ s.volatility ≤ 1

instance (s : EnvironmentState) : Decidable (stateInBounds s) := by
  unfold stateInBounds; infer_instance

/-- Fold a sequence of `apply_deltas` calls (delta map and noise per call)
over an environment. -/
def applyAll (env : BusinessEnvironment)
    (calls : List (List (String × ℚ) × ℚ)) : BusinessEnvironment :=
  calls.foldl (fun e c => e.apply_deltas c.1 c.2) env

/-- `ENV_DEFAULTS` from `config.py`. -/
def ENV_DEFAULTS : EnvironmentState :=
  { revenue := 1000000
    cost := 600000
    risk_score := 35/100
    churn := 8/100
    marketing_budget := 80000
    growth_rate := 5/100
    volatility := 15/100
    round_number := 0 }

/-! ## Agent proposals (`base_agent.py`) -/

/-- `AgentProposal`: the structured output of a single agent for one round
(`metadata` is not modelled). -/
structure AgentProposal where
  agent_name : String
  action : String
  deltas : List (String × ℚ)
  confidence : ℚ
  rationale : String
  priority : ℤ := 1
  deriving Repr, DecidableEq

/-- `AgentProposal` construction including `__post_init__` validation:
raises (`Except.error`) unless `0.0 <= confidence <= 1.0`. -/
def mkAgentProposal (agent_name action : String) (deltas : List (String × ℚ))
    (confidence : ℚ) (rationale : String) (priority : ℤ) :
    Except String AgentProposal :=
  if 0 ≤ confidence ∧ confidence ≤ 1 then
    Except.ok
      { agent_name := agent_name, action := action, deltas := deltas
        confidence := confidence, rationale := rationale, priority := priority }
  else
    Except.error "confidence must be in [0, 1]"

/-! ## The negotiation engine (`engine.py`) -/

/-- `CONFLICT_THRESHOLD` from `config.py`. -/
def CONFLICT_THRESHOLD : ℚ := 1/2

/-- `AGENT_WEIGHTS` from `config.py`. -/
def AGENT_WEIGHTS : List (String × ℚ) :=
  [("RevenueAgent", 30/100),
   ("RiskAgent", 25/100),
   ("CostAgent", 25/100),
   ("GrowthAgent", 20/100)]

/-- `ConflictReport`: one detected pairwise conflict. -/
structure ConflictReport where
  agent_a : String
  agent_b : String
  conflicting_keys : List String
  severity : ℚ
  deriving Repr, DecidableEq

/-- `key in p.deltas`. -/
def hasKey (p : AgentProposal) (k : String) : Bool :=
  (alookup p.deltas k).isSome

/-- `p.deltas[key]` (total function; only ever used under `hasKey`). -/
def deltaVal (p : AgentProposal) (k : String) : ℚ :=
  alookupD p.deltas k 0

/-- `set(a.deltas.keys()) & set(b.deltas.keys())` as a duplicate-free list. -/
def sharedKeys (a b : AgentProposal) : List String :=
  ((a.deltas.map Prod.fst).dedup).filter (fun k => hasKey b k)

/-- The body of the pairwise loop of `_detect_conflicts`: `none` when the two
proposals share no key or the severity is below `CONFLICT_THRESHOLD`,
otherwise the `ConflictReport` (severity stored rounded to 4 digits). -/
def pairConflict (a b : AgentProposal) : Option ConflictReport :=
  let shared := sharedKeys a b
  if shared.isEmpty then none
  else
    let conflicting := shared.filter (fun k => deltaVal a k * deltaVal b k < 0)
    let severity : ℚ := (conflicting.length : ℚ) / (shared.length : ℚ)
    if CONFLICT_THRESHOLD ≤ severity then
      some { agent_a := a.agent_name, agent_b := b.agent_name
             conflicting_keys := conflicting, severity := pyRound 4 severity }
    else none

/-- `NegotiationEngine._detect_conflicts`: scan all ordered pairs `i < j`. -/
def detectConflicts : List AgentProposal → List ConflictReport
  | [] => []
  | p :: rest => rest.filterMap (fun q => pairConflict p q) ++ detectConflicts rest

/-- The `conflict_agents` set: names appearing in some detected conflict. -/
def conflictAgentNames (ps : List AgentProposal) : List String :=
  (detectConflicts ps).flatMap (fun c => [c.agent_a, c.agent_b])

/-- The last proposal in the list with the given agent name: the value the
`effective_weights` dict holds for that name after the construction loop
(later proposals with the same name overwrite earlier ones). -/
def lastWithName (ps : List AgentProposal) (n : String) : Option AgentProposal :=
  (ps.filter (fun p => p.agent_name = n)).getLast?

/-- `self.agent_weights.get(proposal.agent_name, 1.0)`. -/
def baseWeight (w : List (String × ℚ)) (n : String) : ℚ :=
  alookupD w n 1

/-- `effective_weights[n] = base * confidence * penalty` where the confidence
comes from the last proposal named `n` and the penalty is `0.80` for agents
involved in a conflict (names with no proposal have no dict entry; `0` keeps
the function total and is never read by the engine). -/
def effectiveWeight (w : List (String × ℚ)) (ps : List AgentProposal)
    (n : String) : ℚ :=
  match lastWithName ps n with
  | none => 0
  | some p =>
    let penalty : ℚ := if n ∈ conflictAgentNames ps then 4/5 else 1
    baseWeight w n * p.confidence * penalty

/-- The distinct agent names, i.e. the key set of `effective_weights`. -/
def distinctNames (ps : List AgentProposal) : List String :=
  (ps.map (fun p => p.agent_name)).dedup

/-- `total_weight = sum(effective_weights.values())` (before the zero
substitution). -/
def totalWeight (E : String → ℚ) (ps : List AgentProposal) : ℚ :=
  ((distinctNames ps).map E).sum

/-- `all_keys`: union of the proposals' delta key sets, as a duplicate-free
list. -/
def allKeys (ps : List AgentProposal) : List String :=
  (ps.flatMap (fun p => p.deltas.map Prod.fst)).dedup

/-- `key_weight_sum` for one key: total effective weight of the proposals
containing that key.  `E` is the effective-weight function. -/
def keyWeightSum (E : String → ℚ) (ps : List AgentProposal) (k : String) : ℚ :=
  ((ps.filter (fun p => hasKey p k)).map (fun p => E p.agent_name)).sum

/-- `weighted_sum` for one key: `Σ proposal.deltas[key] * w` over the
proposals containing that key. -/
def keyWeightedSum (E : String → ℚ) (ps : List AgentProposal) (k : String) : ℚ :=
  ((ps.filter (fun p => hasKey p k)).map
    (fun p => deltaVal p k * E p.agent_name)).sum

/-- `final_deltas`: one entry per key of `all_keys` whose `key_weight_sum`
is strictly positive, holding the weighted average. -/
def finalDeltasOf (E : String → ℚ) (ps : List AgentProposal) :
    List (String × ℚ) :=
  (allKeys ps).filterMap (fun k =>
    if 0 < keyWeightSum E ps k then
      some (k, keyWeightedSum E ps k / keyWeightSum E ps k)
    else none)

/-- `ConsensusResult` (the `summary` string is not modelled). -/
structure ConsensusResult where
  final_deltas : List (String × ℚ)
  conflicts : List ConflictReport
  confidence_index : ℚ
  agent_votes : List (String × ℚ)
  proposals : List AgentProposal := []
  deriving Repr, DecidableEq

/-- `NegotiationEngine`: stores the base weight table.  The constructor
performs no validation whatsoever (`self.agent_weights = agent_weights`). -/
structure NegotiationEngine where
  agent_weights : List (String × ℚ)
  deriving Repr, DecidableEq

/-- `NegotiationEngine.__init__`. -/
def mkNegotiationEngine (w : List (String × ℚ)) : NegotiationEngine :=
  { agent_weights := w }

/-- The denominator used for the confidence index and the vote shares:
`total_weight` after the `if total_weight == 0: total_weight = 1.0`
substitution. -/
def negTotal (w : List (String × ℚ)) (ps : List AgentProposal) : ℚ :=
  if totalWeight (effectiveWeight w ps) ps = 0 then 1
  else totalWeight (effectiveWeight w ps) ps

/-- `NegotiationEngine.negotiate` on the weight table `w`. -/
def negotiate (w : List (String × ℚ)) (ps : List AgentProposal) :
    ConsensusResult :=
  if ps.isEmpty then
    { final_deltas := [], conflicts := [], confidence_index := 0
      agent_votes := [], proposals := [] }
  else
    { final_deltas := finalDeltasOf (effectiveWeight w ps) ps
      conflicts := detectConflicts ps
      confidence_index :=
        pyRound 4
          ((ps.map (fun p => effectiveWeight w ps p.agent_name * p.confidence)).sum /
            negTotal w ps)
      agent_votes :=
        (distinctNames ps).map
          (fun n => (n, pyRound 4 (effectiveWeight w ps n / negTotal w ps)))
      proposals := ps }

/-- Method form of `negotiate`. -/
def NegotiationEngine.negotiate (e : NegotiationEngine)
    (ps : List AgentProposal) : ConsensusResult :=
  AgentSphere.negotiate e.agent_weights ps

/-! ## The simulator (`simulator.py`) -/

/-- A simulation agent as the orchestrator sees it: a name and a pure
`propose` function from a state snapshot to a proposal.  The four concrete
agents (`revenue_agent.py`, `risk_agent.py`, `cost_agent.py`,
`growth_agent.py`) compute their proposal from the snapshot alone — their
internal history, cleared by `reset()` at run start, never feeds back into
`propose` — so this interface captures them exactly. -/
structure SimAgent where
  name : String
  propose : EnvironmentState → AgentProposal

/-- `RoundResult` (the stored `noise` field is `round(noise, 6)`). -/
structure RoundResult where
  round_number : ℤ
  proposals : List AgentProposal
  consensus : ConsensusResult
  state_before : EnvironmentState
  state_after : EnvironmentState
  noise : ℚ

/-- `SimulationResult` (the `metadata` dict, unused by `run`, is omitted). -/
structure SimulationResult where
  rounds : List RoundResult
  initial_state : EnvironmentState
  final_state : EnvironmentState
  scenario_name : String

/-- One round of `Simulator.run`: snapshot, collect proposals in agent
order, negotiate, sample noise `gauss(0, volatility * 0.1)` when stochastic
(modelled as `volatility * 0.1 * z i` where `z` is the standard normal
deviate stream of the seeded generator and `i` the number of draws made so
far), apply, record. -/
def simStep (w : List (String × ℚ)) (z : ℕ → ℚ) (stochastic : Bool)
    (agents : List SimAgent)
    (acc : BusinessEnvironment × ℕ × List RoundResult) (ridx : ℤ) :
    BusinessEnvironment × ℕ × List RoundResult :=
  let env := acc.1
  let zi := acc.2.1
  let rounds := acc.2.2
  let state_before := env.snapshot
  let proposals := agents.map (fun a => a.propose state_before)
  let consensus := negotiate w proposals
  let noise := if stochastic then state_before.volatility * (1/10) * z zi else 0
  let zi' := if stochastic then zi + 1 else zi
  let env' := env.apply_deltas consensus.final_deltas noise
  (env', zi',
    rounds ++
      [{ round_number := ridx, proposals := proposals, consensus := consensus
         state_before := state_before, state_after := env'.state
         noise := pyRound 6 noise }])

/-- `Simulator.run`: reset the store (agent resets only clear history and
do not affect proposals), record the initial snapshot, run
`n_rounds` rounds, return the aggregated result.  The seeded random source
`random.Random(seed)` is a deterministic function of the seed; it enters
here as the deviate stream `z`. -/
def runSim (w : List (String × ℚ)) (z : ℕ → ℚ) (agents : List SimAgent)
    (init : EnvironmentState) (n_rounds : ℕ) (scenario_name : String)
    (stochastic : Bool) : SimulationResult :=
  let env0 := mkBusinessEnvironment init
  let initial_state := env0.snapshot
  let final :=
    ((List.range n_rounds).map (fun i => (i : ℤ) + 1)).foldl
      (simStep w z stochastic agents) (env0, 0, [])
  { rounds := final.2.2
    initial_state := initial_state
    final_state := final.1.snapshot
    scenario_name := scenario_name }

/-! ## Basic lemmas -/

theorem alookup_nil (k : String) : alookup [] k = none := rfl

theorem alookup_cons (a : String) (v : ℚ) (l : List (String × ℚ)) (k : String) :
    alookup ((a, v) :: l) k = if a = k then some v else alookup l k := by
  by_cases h : a = k <;> simp [alookup, List.find?_cons, h]

theorem clamp_mem (lo hi x : ℚ) (h : lo ≤ hi) :
    lo ≤ clamp lo hi x ∧ clamp lo hi x ≤ hi := by
  refine ⟨le_max_left _ _, max_le h (min_le_left _ _)⟩

theorem pyRound_zero (n : ℕ) : pyRound n 0 = 0 := by
  have h : halfEvenRound 0 = 0 := by norm_num [halfEvenRound]
  simp [pyRound, h]

theorem applyField_mem (ds : List (String × ℚ)) (noise : ℚ) (key : String)
    (old lo hi : ℚ) (hb : boundFor key = (lo, hi)) (hlh : lo ≤ hi) :
    lo ≤ applyField ds noise key old ∧ applyField ds noise key old ≤ hi := by
  unfold applyField
  rw [hb]
  exact clamp_mem lo hi _ hlh

theorem stateInBounds_apply (env : BusinessEnvironment)
    (ds : List (String × ℚ)) (noise : ℚ) :
    stateInBounds (env.apply_deltas ds noise).state := by
  unfold BusinessEnvironment.apply_deltas stateInBounds
  refine ⟨?_, ?_, ?_, ?_, ?_, ?_, ?_, ?_, ?_, ?_, ?_, ?_, ?_, ?_⟩
  · exact (applyField_mem ds noise "revenue" _ _ _ rfl (by norm_num)).1
  · exact (applyField_mem ds noise "revenue" _ _ _ rfl (by norm_num)).2
  · exact (applyField_mem ds noise "cost" _ _ _ rfl (by norm_num)).1
  · exact (applyField_mem ds noise "cost" _ _ _ rfl (by norm_num)).2
  · exact (applyField_mem ds noise "risk_score" _ _ _ rfl (by norm_num)).1
  · exact (applyField_mem ds noise "risk_score" _ _ _ rfl (by norm_num)).2
  · exact (applyField_mem ds noise "churn" _ _ _ rfl (by norm_num)).1
  · exact (applyField_mem ds noise "churn" _ _ _ rfl (by norm_num)).2
  · exact (applyField_mem ds noise "marketing_budget" _ _ _ rfl (by norm_num)).1
  · exact (applyField_mem ds noise "marketing_budget" _ _ _ rfl (by norm_num)).2
  · exact (applyField_mem ds noise "growth_rate" _ _ _ rfl (by norm_num)).1
  · exact (applyField_mem ds noise "growth_rate" _ _ _ rfl (by norm_num)).2
  · exact (applyField_mem ds noise "volatility" _ _ _ rfl (by norm_num)).1
  · exact (applyField_mem ds noise "volatility" _ _ _ rfl (by norm_num)).2

/-- Every state a run of `apply_deltas` calls puts into the history is in
bounds. -/
def allInBounds (l : List EnvironmentState) : Prop :=
  ∀ s ∈ l, stateInBounds s

theorem apply_deltas_history (env : BusinessEnvironment)
    (ds : List (String × ℚ)) (noise : ℚ) :
    (env.apply_deltas ds noise).history =
      env.history ++ [(env.apply_deltas ds noise).state] := rfl

theorem allInBounds_applyAll (env : BusinessEnvironment)
    (calls : List (List (String × ℚ) × ℚ)) (h : allInBounds env.history) :
    allInBounds (applyAll env calls).history := by
  induction calls generalizing env with
  | nil => exact h
  | cons c rest ih =>
    have hstep : allInBounds (env.apply_deltas c.1 c.2).history := by
      intro s hs
      rw [apply_deltas_history] at hs
      rcases List.mem_append.mp hs with h1 | h2
      · exact h s h1
      · rcases List.mem_singleton.mp h2 with rfl
        exact stateInBounds_apply env c.1 c.2
    exact ih (env.apply_deltas c.1 c.2) hstep

theorem pyRound_exact (n : ℕ) (q : ℚ) (z : ℤ) (h : q * 10^n = (z : ℚ)) :
    pyRound n q = q := by
  unfold pyRound halfEvenRound
  rw [h, Int.floor_intCast]
  norm_num
  rw [div_eq_iff (by positivity : ((10:ℚ))^n ≠ 0)]
  exact h.symm

theorem pyRound4_third_ne : pyRound 4 (1/3) ≠ (1/3 : ℚ) := by
  unfold pyRound
  intro h
  rw [div_eq_iff (by norm_num : ((10:ℚ))^4 ≠ 0)] at h
  have h3 : ((3 * halfEvenRound (1/3 * 10^4) : ℤ) : ℚ) = 10000 := by
    push_cast
    linarith
  have : (3 * halfEvenRound (1/3 * 10^4) : ℤ) = 10000 := by exact_mod_cast h3
  omega

theorem alookup_isSome_iff (l : List (String × ℚ)) (k : String) :
    (alookup l k).isSome = true ↔ k ∈ l.map Prod.fst := by
  induction l with
  | nil => simp [alookup]
  | cons e rest ih =>
    have hcons : alookup (e :: rest) k = alookup ((e.1, e.2) :: rest) k := rfl
    rw [hcons, alookup_cons]
    by_cases h : e.1 = k
    · simp [h]
    · have hk : ¬(k = e.1) := fun hk => h hk.symm
      simp [h, hk, ih]

theorem hasKey_iff_mem (p : AgentProposal) (k : String) :
    hasKey p k = true ↔ k ∈ p.deltas.map Prod.fst :=
  alookup_isSome_iff p.deltas k

theorem mem_allKeys_iff (ps : List AgentProposal) (k : String) :
    k ∈ allKeys ps ↔ ∃ p ∈ ps, hasKey p k = true := by
  simp only [allKeys, List.mem_dedup, List.mem_flatMap]
  constructor
  · rintro ⟨p, hp, hk⟩
    exact ⟨p, hp, (hasKey_iff_mem p k).mpr hk⟩
  · rintro ⟨p, hp, hk⟩
    exact ⟨p, hp, (hasKey_iff_mem p k).mp hk⟩

theorem keyWeightSum_eq_zero (E : String → ℚ) (ps : List AgentProposal)
    (k : String) (h : ∀ p ∈ ps, hasKey p k = false) :
    keyWeightSum E ps k = 0 := by
  unfold keyWeightSum
  have hf : ps.filter (fun p => hasKey p k) = [] := by
    rw [List.filter_eq_nil_iff]
    intro p hp
    simp [h p hp]
  rw [hf]
  rfl

theorem mem_allKeys_of_pos (E : String → ℚ) (ps : List AgentProposal)
    (k : String) (h : 0 < keyWeightSum E ps k) : k ∈ allKeys ps := by
  by_contra hk
  have hall : ∀ p ∈ ps, hasKey p k = false := by
    intro p hp
    cases hbk : hasKey p k with
    | false => rfl
    | true => exact absurd ((mem_allKeys_iff ps k).mpr ⟨p, hp, hbk⟩) hk
  rw [keyWeightSum_eq_zero E ps k hall] at h
  exact lt_irrefl 0 h

theorem alookup_filterMap_keyed (keys : List String) (f : String → Option ℚ)
    (k : String) :
    alookup (keys.filterMap (fun a => (f a).map (fun v => (a, v)))) k =
      if k ∈ keys then f k else none := by
  induction keys with
  | nil => simp [alookup]
  | cons a rest ih =>
    by_cases hak : a = k
    · subst hak
      cases hfa : f a with
      | none =>
        have hstep : List.filterMap (fun b => (f b).map (fun v => (b, v))) (a :: rest) =
            List.filterMap (fun b => (f b).map (fun v => (b, v))) rest := by
          rw [List.filterMap_cons, hfa]
          rfl
        rw [hstep, ih]
        by_cases hk : a ∈ rest <;> simp [hk, hfa]
      | some v =>
        have hstep : List.filterMap (fun b => (f b).map (fun v => (b, v))) (a :: rest) =
            (a, v) :: List.filterMap (fun b => (f b).map (fun v => (b, v))) rest := by
          rw [List.filterMap_cons, hfa]
          rfl
        rw [hstep, alookup_cons, if_pos rfl]
        simp [hfa]
    · have hka : ¬(k = a) := fun h => hak h.symm
      cases hfa : f a with
      | none =>
        have hstep : List.filterMap (fun b => (f b).map (fun v => (b, v))) (a :: rest) =
            List.filterMap (fun b => (f b).map (fun v => (b, v))) rest := by
          rw [List.filterMap_cons, hfa]
          rfl
        rw [hstep, ih]
        by_cases hk : k ∈ rest <;> simp [hk, hka]
      | some v =>
        have hstep : List.filterMap (fun b => (f b).map (fun v => (b, v))) (a :: rest) =
            (a, v) :: List.filterMap (fun b => (f b).map (fun v => (b, v))) rest := by
          rw [List.filterMap_cons, hfa]
          rfl
        rw [hstep, alookup_cons, if_neg hak, ih]
        by_cases hk : k ∈ rest <;> simp [hk, hka]

theorem alookup_map_keyed (names : List String) (g : String → ℚ) (n : String) :
    alookup (names.map (fun m => (m, g m))) n =
      if n ∈ names then some (g n) else none := by
  have h : names.map (fun m => (m, g m)) =
      names.filterMap (fun a => ((fun m => some (g m)) a).map (fun v => (a, v))) := by
    induction names with
    | nil => rfl
    | cons a rest ih => simp [List.filterMap_cons, ih]
  rw [h, alookup_filterMap_keyed]

theorem alookup_finalDeltasOf (E : String → ℚ) (ps : List AgentProposal)
    (k : String) :
    alookup (finalDeltasOf E ps) k =
      if 0 < keyWeightSum E ps k then
        some (keyWeightedSum E ps k / keyWeightSum E ps k)
      else none := by
  have hfun : (fun a => if 0 < keyWeightSum E ps a then
        some (a, keyWeightedSum E ps a / keyWeightSum E ps a) else none) =
      (fun a => ((fun b => if 0 < keyWeightSum E ps b then
        some (keyWeightedSum E ps b / keyWeightSum E ps b) else none) a).map
          (fun v => (a, v))) := by
    funext a
    by_cases h : 0 < keyWeightSum E ps a <;> simp [h]
  rw [finalDeltasOf, hfun, alookup_filterMap_keyed]
  by_cases hmem : k ∈ allKeys ps
  · simp [hmem]
  · rw [if_neg hmem, if_neg (fun hpos => hmem (mem_allKeys_of_pos E ps k hpos))]

theorem negotiate_final_deltas (w : List (String × ℚ)) (ps : List AgentProposal) :
    (negotiate w ps).final_deltas = finalDeltasOf (effectiveWeight w ps) ps := by
  cases ps <;> rfl

theorem negotiate_confidence_index (w : List (String × ℚ))
    (ps : List AgentProposal) :
    (negotiate w ps).confidence_index =
      pyRound 4
        ((ps.map (fun p => effectiveWeight w ps p.agent_name * p.confidence)).sum /
          negTotal w ps) := by
  cases ps with
  | nil =>
    have : negTotal [] ([] : List AgentProposal) = 1 := by
      simp [negTotal, totalWeight, distinctNames]
    simp [negotiate, this, pyRound_zero]
  | cons p rest => rfl

theorem negotiate_agent_votes (w : List (String × ℚ)) (ps : List AgentProposal) :
    (negotiate w ps).agent_votes =
      (distinctNames ps).map
        (fun n => (n, pyRound 4 (effectiveWeight w ps n / negTotal w ps))) := by
  cases ps <;> rfl

theorem negotiate_conflicts (w : List (String × ℚ)) (ps : List AgentProposal) :
    (negotiate w ps).conflicts = detectConflicts ps := by
  cases ps <;> rfl

theorem mem_of_lastWithName (ps : List AgentProposal) (n : String)
    (p : AgentProposal) (h : lastWithName ps n = some p) : p ∈ ps := by
  unfold lastWithName at h
  obtain ⟨hne, hp⟩ := List.mem_getLast?_eq_getLast (Option.mem_def.mpr h)
  have hmem : p ∈ ps.filter (fun q => q.agent_name = n) := by
    rw [hp]
    exact List.getLast_mem hne
  exact (List.mem_filter.mp hmem).1

theorem baseWeight_nonneg (w : List (String × ℚ)) (n : String)
    (hw : ∀ e ∈ w, 0 ≤ e.2) : 0 ≤ baseWeight w n := by
  unfold baseWeight alookupD alookup
  cases hfind : w.find? (fun e => e.1 = n) with
  | none => norm_num
  | some e => simpa using hw e (List.mem_of_find?_eq_some hfind)

theorem effectiveWeight_nonneg (w : List (String × ℚ)) (ps : List AgentProposal)
    (n : String) (hw : ∀ e ∈ w, 0 ≤ e.2)
    (hc : ∀ p ∈ ps, 0 ≤ p.confidence) : 0 ≤ effectiveWeight w ps n := by
  unfold effectiveWeight
  cases hlast : lastWithName ps n with
  | none => simp
  | some p =>
    have hp : 0 ≤ p.confidence := hc p (mem_of_lastWithName ps n p hlast)
    have hpen : (0:ℚ) ≤ if n ∈ conflictAgentNames ps then 4/5 else 1 := by
      split <;> norm_num
    simp only []
    exact mul_nonneg (mul_nonneg (baseWeight_nonneg w n hw) hp) hpen

theorem sum_eq_zero_of_nonneg (l : List ℚ) (h : ∀ x ∈ l, 0 ≤ x)
    (hs : l.sum = 0) : ∀ x ∈ l, x = 0 := by
  induction l with
  | nil => intro x hx; cases hx
  | cons a rest ih =>
    rw [List.sum_cons] at hs
    have ha : 0 ≤ a := h a (List.mem_cons_self a rest)
    have hrest : 0 ≤ rest.sum :=
      List.sum_nonneg (fun x hx => h x (List.mem_cons_of_mem a hx))
    have ha0 : a = 0 := by linarith
    have hs0 : rest.sum = 0 := by linarith
    intro x hx
    rcases List.mem_cons.mp hx with rfl | hx
    · exact ha0
    · exact ih (fun y hy => h y (List.mem_cons_of_mem a hy)) hs0 x hx

/-! ## Concrete proposals used by witnesses and counterexamples -/

/-- A valid proposal (confidence `0.8`) pushing `x` up. -/
def cPropUp : AgentProposal :=
  { agent_name := "A", action := "up", deltas := [("x", 1/10)]
    confidence := 4/5, rationale := "r", priority := 1 }

/-- A valid proposal (confidence `0.8`) pushing `x` down. -/
def cPropDown : AgentProposal :=
  { agent_name := "B", action := "down", deltas := [("x", -(1/10))]
    confidence := 4/5, rationale := "r", priority := 1 }

/-- A valid proposal with confidence `0`. -/
def cPropZero : AgentProposal :=
  { agent_name := "A", action := "zero", deltas := [("x", 1/10)]
    confidence := 0, rationale := "r", priority := 1 }

/-- A valid proposal with confidence `1/3`. -/
def cPropThird : AgentProposal :=
  { agent_name := "A", action := "third", deltas := [("x", 1/3)]
    confidence := 1/3, rationale := "r", priority := 1 }

/-- A valid proposal with confidence `1/2` by an agent named `"X"`. -/
def cPropX : AgentProposal :=
  { agent_name := "X", action := "act", deltas := [("x", 1/10)]
    confidence := 1/2, rationale := "r", priority := 1 }

/-! ## Claim theorems -/

/-- C1.  Every `apply_deltas` call clamps every numeric field to its
configured `[lo, hi]` bound, so across any sequence of calls (any delta
mappings, any noise values) every snapshot in the history — in particular
the state returned by each call, which is the snapshot appended by that
call — lies within bounds; and in the concrete scenario revenue `100` with
delta `{revenue: -2.0}` and zero noise, the resulting revenue is exactly
`1`. -/
theorem c1_apply_deltas_bounded (init : EnvironmentState)
    (calls : List (List (String × ℚ) × ℚ)) :
    allInBounds (applyAll (mkBusinessEnvironment init) calls).history ∧
    ((mkBusinessEnvironment { ENV_DEFAULTS with revenue := 100 }).apply_deltas
        [("revenue", -2)] 0).state.revenue = 1 := by
  constructor
  · exact allInBounds_applyAll _ calls (fun s hs => by simp [mkBusinessEnvironment] at hs)
  · show applyField [("revenue", -2)] 0 "revenue" _ = 1
    norm_num [mkBusinessEnvironment, ENV_DEFAULTS, applyField, alookupD, alookup,
      List.find?, boundFor, BOUNDS, rawValue, clamp, min_def, max_def]

/-- C2 counterexample.  The claim predicts that a zero delta applies the
noise with a negative sign, i.e. pre-clamp value
`old * (1 + 0 + n * (-1))`; at `old = 2`, `delta = 0`, `n = 1/2` the code's
pre-clamp value (`rawValue`, the value `apply_deltas` feeds to the clamp) is
`3`, not the predicted `1`. -/
theorem c2_zero_delta_counterexample :
    rawValue 2 0 (1/2) = 3 ∧ rawValue 2 0 (1/2) ≠ 2 * (1 + 0 + (1/2) * (-1)) := by
  constructor <;> norm_num [rawValue]

/-- C2 amended.  `apply_deltas` computes the pre-clamp value as
`old * (1 + delta + signed_noise)` where the noise sign is positive for a
delta that is zero *or* positive and negative only for a strictly negative
delta (the code tests `delta >= 0`); a field absent from the delta mapping
is treated as delta `0`, hence receives the positive noise sign. -/
theorem c2_signed_noise (old delta noise : ℚ) (ds : List (String × ℚ))
    (key : String) :
    (0 ≤ delta → rawValue old delta noise = old * (1 + delta + noise)) ∧
    (delta < 0 → rawValue old delta noise = old * (1 + delta - noise)) ∧
    (alookup ds key = none →
      applyField ds noise key old =
        clamp (boundFor key).1 (boundFor key).2 (rawValue old 0 noise)) := by
  refine ⟨fun h => ?_, fun h => ?_, fun h => ?_⟩
  · rw [rawValue, if_pos h]; ring
  · rw [rawValue, if_neg (not_le.mpr h)]; ring
  · unfold applyField alookupD
    rw [h]
    rfl

theorem c2_signed_noise_witness :
    (0 : ℚ) ≤ 0 ∧ rawValue 2 0 (1/2) = 2 * (1 + 0 + 1/2) :=
  ⟨le_refl 0, (c2_signed_noise 2 0 (1/2) [] "x").1 (le_refl 0)⟩

/-- C9.  Constructing an `AgentProposal` (with the `__post_init__`
validation) succeeds exactly when the confidence lies in `[0, 1]`, and any
successfully constructed proposal carries an in-range confidence. -/
theorem c9_confidence_validated (n a : String) (ds : List (String × ℚ))
    (c : ℚ) (r : String) (pr : ℤ) :
    ((∃ p, mkAgentProposal n a ds c r pr = Except.ok p) ↔ (0 ≤ c ∧ c ≤ 1)) ∧
    (∀ p, mkAgentProposal n a ds c r pr = Except.ok p →
      p.confidence = c ∧ 0 ≤ p.confidence ∧ p.confidence ≤ 1) := by
  unfold mkAgentProposal
  by_cases h : 0 ≤ c ∧ c ≤ 1
  · rw [if_pos h]
    refine ⟨Iff.intro (fun _ => h) (fun _ => ⟨_, rfl⟩), fun p hp => ?_⟩
    cases hp
    exact ⟨rfl, h.1, h.2⟩
  · rw [if_neg h]
    refine ⟨Iff.intro (fun he => ?_) (fun hc => absurd hc h), fun p hp => by cases hp⟩
    obtain ⟨p, hp⟩ := he
    cases hp

theorem c9_confidence_validated_witness :
    ∃ p, mkAgentProposal "A" "act" [("x", 1/10)] (1/2) "r" 1 = Except.ok p :=
  ((c9_confidence_validated "A" "act" [("x", 1/10)] (1/2) "r" 1).1).mpr
    ⟨by norm_num, by norm_num⟩

/-- C8.  The claim says a non-positive negotiation weight is rejected at
setup.  The code's `NegotiationEngine.__init__` performs no validation: with
the weight table `{"X": -1.0}` construction succeeds, stores the table
unchanged, and the resulting engine is usable — `negotiate` runs and
returns a well-defined `ConsensusResult`. -/
theorem c8_engine_accepts_nonpositive_weight :
    (mkNegotiationEngine [("X", -1)]).agent_weights = [("X", -1)] ∧
    (mkNegotiationEngine [("X", -1)]).negotiate [cPropX] =
      { final_deltas := [], conflicts := [], confidence_index := 1/2
        agent_votes := [("X", 1)], proposals := [cPropX] } := by
  refine ⟨rfl, ?_⟩
  simp [NegotiationEngine.negotiate, mkNegotiationEngine, negotiate, cPropX,
    finalDeltasOf, allKeys, keyWeightSum, keyWeightedSum, effectiveWeight,
    lastWithName, conflictAgentNames, detectConflicts, pairConflict, sharedKeys,
    hasKey, deltaVal, baseWeight, alookupD, alookup, List.find?, distinctNames,
    totalWeight, negTotal, List.dedup, List.filter, List.filterMap]
  norm_num
  constructor
  · exact pyRound_exact 4 (1/2) 5000 (by norm_num)
  · exact pyRound_exact 4 1 10000 (by norm_num)

/-- C10.  A proposal whose agent name is absent from the engine's weight
table silently receives base weight `1.0` (so its effective weight is
`1.0 × confidence × penalty`; for a lone proposal the penalty is `1`), and
every weight configured in `AGENT_WEIGHTS` is at most `0.30 < 1`, so an
unregistered agent outweighs every registered one. -/
theorem c10_unregistered_default_weight (n : String) (p : AgentProposal)
    (hn : alookup AGENT_WEIGHTS n = none) (hp : p.agent_name = n) :
    baseWeight AGENT_WEIGHTS n = 1 ∧
    effectiveWeight AGENT_WEIGHTS [p] n = 1 * p.confidence * 1 ∧
    (∀ e ∈ AGENT_WEIGHTS, e.2 ≤ 30/100) ∧ (30/100 : ℚ) < 1 := by
  have hbase : baseWeight AGENT_WEIGHTS n = 1 := by
    unfold baseWeight alookupD
    rw [hn]
    rfl
  have hlast : lastWithName [p] n = some p := by
    simp [lastWithName, List.filter_cons, hp]
  have hca : conflictAgentNames [p] = [] := rfl
  refine ⟨hbase, ?_, ?_, by norm_num⟩
  · unfold effectiveWeight
    simp only [hlast, hca, List.not_mem_nil, if_false, hbase]
  · intro e he
    simp only [AGENT_WEIGHTS, List.mem_cons, List.not_mem_nil, or_false] at he
    rcases he with rfl | rfl | rfl | rfl <;> norm_num

theorem c10_unregistered_default_weight_witness :
    baseWeight AGENT_WEIGHTS "X" = 1 ∧
    effectiveWeight AGENT_WEIGHTS [cPropX] "X" = 1 * cPropX.confidence * 1 ∧
    (∀ e ∈ AGENT_WEIGHTS, e.2 ≤ 30/100) ∧ (30/100 : ℚ) < 1 :=
  c10_unregistered_default_weight "X" cPropX rfl rfl

/-- C3 counterexample.  The claim says `final_deltas` has an entry for every
key proposed by at least one proposal.  A single proposal with confidence
`0` proposes `"x"`, yet its effective weight is `0`, the per-key weight sum
is not strictly positive, and the merged mapping is empty. -/
theorem c3_counterexample :
    hasKey cPropZero "x" = true ∧ (negotiate [] [cPropZero]).final_deltas = [] := by
  refine ⟨rfl, ?_⟩
  rw [negotiate_final_deltas]
  simp [finalDeltasOf, allKeys, cPropZero, keyWeightSum, effectiveWeight,
    lastWithName, conflictAgentNames, detectConflicts, baseWeight, alookupD,
    alookup, List.find?, hasKey, List.dedup, List.filter, List.filterMap]

/-- C3 amended.  `final_deltas` contains an entry for a key exactly when the
total effective weight of the proposals containing that key is strictly
positive; the entry is the effective-weight-weighted average of those
proposals' deltas.  Keys proposed by no proposal are absent (their weight
sum is zero), and so are keys proposed only by zero-effective-weight
producers. -/
theorem c3_final_deltas_exactness (w : List (String × ℚ))
    (ps : List AgentProposal) (k : String) :
    (∀ v, alookup (negotiate w ps).final_deltas k = some v →
      0 < keyWeightSum (effectiveWeight w ps) ps k ∧
      v = keyWeightedSum (effectiveWeight w ps) ps k /
          keyWeightSum (effectiveWeight w ps) ps k) ∧
    (0 < keyWeightSum (effectiveWeight w ps) ps k →
      alookup (negotiate w ps).final_deltas k =
        some (keyWeightedSum (effectiveWeight w ps) ps k /
              keyWeightSum (effectiveWeight w ps) ps k)) ∧
    ((∀ p ∈ ps, hasKey p k = false) →
      alookup (negotiate w ps).final_deltas k = none) := by
  rw [negotiate_final_deltas, alookup_finalDeltasOf]
  refine ⟨fun v hv => ?_, fun hpos => ?_, fun habs => ?_⟩
  · by_cases h : 0 < keyWeightSum (effectiveWeight w ps) ps k
    · rw [if_pos h] at hv
      exact ⟨h, (Option.some.injEq _ _ ▸ hv).symm⟩
    · rw [if_neg h] at hv
      cases hv
  · rw [if_pos hpos]
  · rw [keyWeightSum_eq_zero _ _ _ habs]
    simp

theorem c3_final_deltas_exactness_witness :
    alookup (negotiate [] [cPropUp, cPropDown]).final_deltas "x" =
      some (keyWeightedSum (effectiveWeight [] [cPropUp, cPropDown])
              [cPropUp, cPropDown] "x" /
            keyWeightSum (effectiveWeight [] [cPropUp, cPropDown])
              [cPropUp, cPropDown] "x") :=
  (c3_final_deltas_exactness [] [cPropUp, cPropDown] "x").2.1 (by
    have hd1 : decide (("B" : String) = "A") = false := by decide
    have hd2 : decide (("A" : String) = "B") = false := by decide
    have hd3 : decide (("A" : String) = "A") = true := by decide
    have hd4 : decide (("B" : String) = "B") = true := by decide
    have hd5 : decide (("x" : String) = "x") = true := by decide
    norm_num [keyWeightSum, effectiveWeight, lastWithName, conflictAgentNames,
      detectConflicts, pairConflict, sharedKeys, hasKey, deltaVal, baseWeight,
      alookupD, alookup, List.find?, cPropUp, cPropDown, CONFLICT_THRESHOLD,
      List.dedup, List.filter, List.filterMap, List.getLast?,
      hd1, hd2, hd3, hd4, hd5])

/-- C6 counterexample.  The claim says the returned `confidence_index`
equals the weighted mean of the confidences.  For a single proposal with
confidence `1/3` the weighted mean is exactly `1/3`, but the code returns
`round(1/3, 4) = 0.3333 ≠ 1/3`. -/
theorem c6_counterexample :
    (negotiate [] [cPropThird]).confidence_index ≠ 1/3 := by
  have heval : (negotiate [] [cPropThird]).confidence_index = pyRound 4 (1/3) := by
    rw [negotiate_confidence_index]
    norm_num [cPropThird, effectiveWeight, lastWithName, conflictAgentNames,
      detectConflicts, baseWeight, alookupD, alookup, List.find?, negTotal,
      totalWeight, distinctNames, List.dedup, List.filter]
  rw [heval]
  exact pyRound4_third_ne

/-- C6 amended.  For proposals with pairwise-distinct agent names, the
returned `confidence_index` equals the weighted mean of the proposals'
confidences (weight = effective weight, denominator replaced by `1` when
the total effective weight is exactly `0`) *rounded half-even to 4 decimal
digits*; in the degenerate zero-total case (with nonnegative base weights
and confidences) the index is exactly `0`. -/
theorem c6_confidence_index_weighted_mean (w : List (String × ℚ))
    (ps : List AgentProposal)
    (hnd : (ps.map (fun p => p.agent_name)).Nodup) :
    (negotiate w ps).confidence_index =
      pyRound 4
        ((ps.map (fun p => effectiveWeight w ps p.agent_name * p.confidence)).sum /
          (if (ps.map (fun p => effectiveWeight w ps p.agent_name)).sum = 0 then 1
           else (ps.map (fun p => effectiveWeight w ps p.agent_name)).sum)) ∧
    ((∀ e ∈ w, 0 ≤ e.2) → (∀ p ∈ ps, 0 ≤ p.confidence) →
      (ps.map (fun p => effectiveWeight w ps p.agent_name)).sum = 0 →
      (negotiate w ps).confidence_index = 0) := by
  have htot : totalWeight (effectiveWeight w ps) ps =
      (ps.map (fun p => effectiveWeight w ps p.agent_name)).sum := by
    unfold totalWeight distinctNames
    rw [List.dedup_eq_self.mpr hnd, List.map_map]
    rfl
  constructor
  · rw [negotiate_confidence_index]
    unfold negTotal
    rw [htot]
  · intro hw hc hz
    rw [negotiate_confidence_index]
    have hnum : (ps.map
        (fun p => effectiveWeight w ps p.agent_name * p.confidence)).sum = 0 := by
      apply List.sum_eq_zero
      intro x hx
      obtain ⟨p, hp, rfl⟩ := List.mem_map.mp hx
      have hE : effectiveWeight w ps p.agent_name = 0 := by
        refine sum_eq_zero_of_nonneg
          (ps.map (fun p => effectiveWeight w ps p.agent_name)) ?_ hz _
          (List.mem_map.mpr ⟨p, hp, rfl⟩)
        intro y hy
        obtain ⟨q, hq, rfl⟩ := List.mem_map.mp hy
        exact effectiveWeight_nonneg w ps q.agent_name hw hc
      rw [hE, zero_mul]
    rw [hnum, zero_div, pyRound_zero]

theorem c6_confidence_index_weighted_mean_witness :
    (negotiate [] [cPropUp, cPropDown]).confidence_index =
      pyRound 4
        (([cPropUp, cPropDown].map
            (fun p => effectiveWeight [] [cPropUp, cPropDown] p.agent_name *
              p.confidence)).sum /
          (if ([cPropUp, cPropDown].map
              (fun p => effectiveWeight [] [cPropUp, cPropDown] p.agent_name)).sum = 0
           then 1
           else ([cPropUp, cPropDown].map
              (fun p => effectiveWeight [] [cPropUp, cPropDown] p.agent_name)).sum)) :=
  (c6_confidence_index_weighted_mean [] [cPropUp, cPropDown] (by decide)).1

theorem keySums_bound (E : String → ℚ) (l : List AgentProposal) (k : String)
    (m M : ℚ) (hE : ∀ p ∈ l, 0 ≤ E p.agent_name)
    (hd : ∀ p ∈ l, hasKey p k = true → m ≤ deltaVal p k ∧ deltaVal p k ≤ M) :
    m * keyWeightSum E l k ≤ keyWeightedSum E l k ∧
    keyWeightedSum E l k ≤ M * keyWeightSum E l k := by
  induction l with
  | nil => simp [keyWeightSum, keyWeightedSum]
  | cons p rest ih =>
    have hrest := ih (fun q hq => hE q (List.mem_cons_of_mem p hq))
      (fun q hq hk => hd q (List.mem_cons_of_mem p hq) hk)
    cases hpk : hasKey p k with
    | false =>
      have h1 : keyWeightSum E (p :: rest) k = keyWeightSum E rest k := by
        simp [keyWeightSum, List.filter_cons, hpk]
      have h2 : keyWeightedSum E (p :: rest) k = keyWeightedSum E rest k := by
        simp [keyWeightedSum, List.filter_cons, hpk]
      rw [h1, h2]
      exact hrest
    | true =>
      have h1 : keyWeightSum E (p :: rest) k =
          E p.agent_name + keyWeightSum E rest k := by
        simp [keyWeightSum, List.filter_cons, hpk]
      have h2 : keyWeightedSum E (p :: rest) k =
          deltaVal p k * E p.agent_name + keyWeightedSum E rest k := by
        simp [keyWeightedSum, List.filter_cons, hpk]
      have hEp : 0 ≤ E p.agent_name := hE p (List.mem_cons_self p rest)
      have hdp := hd p (List.mem_cons_self p rest) hpk
      constructor
      · rw [h1, h2, mul_add]
        have hme := mul_le_mul_of_nonneg_right hdp.1 hEp
        linarith [hrest.1]
      · rw [h1, h2, mul_add]
        have hMe := mul_le_mul_of_nonneg_right hdp.2 hEp
        linarith [hrest.2]

/-- C5.  With nonnegative base weights (as configured) and the construction
invariant that confidences are nonnegative, every merged delta present in
`final_deltas` lies between any lower bound and any upper bound of the
individual deltas proposed for that key — in particular between their
minimum and maximum (weighted-average convexity). -/
theorem c5_merged_delta_convex (w : List (String × ℚ)) (ps : List AgentProposal)
    (k : String) (v m M : ℚ)
    (hw : ∀ e ∈ w, 0 ≤ e.2) (hc : ∀ p ∈ ps, 0 ≤ p.confidence)
    (hv : alookup (negotiate w ps).final_deltas k = some v)
    (hm : ∀ p ∈ ps, hasKey p k = true → m ≤ deltaVal p k ∧ deltaVal p k ≤ M) :
    m ≤ v ∧ v ≤ M := by
  rw [negotiate_final_deltas, alookup_finalDeltasOf] at hv
  by_cases h : 0 < keyWeightSum (effectiveWeight w ps) ps k
  · rw [if_pos h] at hv
    have hveq : v = keyWeightedSum (effectiveWeight w ps) ps k /
        keyWeightSum (effectiveWeight w ps) ps k :=
      ((Option.some.injEq _ _).mp hv).symm
    have hE : ∀ p ∈ ps, 0 ≤ effectiveWeight w ps p.agent_name :=
      fun p _ => effectiveWeight_nonneg w ps p.agent_name hw hc
    have hb := keySums_bound (effectiveWeight w ps) ps k m M hE hm
    subst hveq
    constructor
    · rw [le_div_iff₀ h]
      exact hb.1
    · rw [div_le_iff₀ h]
      exact hb.2
  · rw [if_neg h] at hv
    cases hv

theorem c5_merged_delta_convex_witness : -(1/10 : ℚ) ≤ 0 ∧ (0 : ℚ) ≤ 1/10 := by
  have hd1 : decide (("B" : String) = "A") = false := by decide
  have hd2 : decide (("A" : String) = "B") = false := by decide
  have hd3 : decide (("A" : String) = "A") = true := by decide
  have hd4 : decide (("B" : String) = "B") = true := by decide
  have hd5 : decide (("x" : String) = "x") = true := by decide
  refine c5_merged_delta_convex [] [cPropUp, cPropDown] "x" 0 (-(1/10)) (1/10)
    (by simp) ?_ ?_ ?_
  · intro p hp
    fin_cases hp <;> norm_num [cPropUp, cPropDown]
  · rw [negotiate_final_deltas]
    norm_num [finalDeltasOf, allKeys, keyWeightSum, keyWeightedSum,
      effectiveWeight, lastWithName, conflictAgentNames, detectConflicts,
      pairConflict, sharedKeys, hasKey, deltaVal, baseWeight, alookupD,
      alookup, List.find?, cPropUp, cPropDown, CONFLICT_THRESHOLD, List.dedup,
      List.filter, List.filterMap, List.getLast?, hd1, hd2, hd3, hd4, hd5]
  · intro p hp
    fin_cases hp <;>
      norm_num [cPropUp, cPropDown, deltaVal, alookupD, alookup, List.find?]

/-- C4.  `Simulator.run` is deterministic: on equal weight tables, equal
standard-normal deviate streams (the stream of `random.Random(seed)` is a
deterministic function of the seed, so identical seeds give identical
streams), equal agent sets, equal initial configurations and equal
arguments, two runs produce equal `SimulationResult` values — the same
rounds (proposals, consensus, states, noise), the same initial and final
states. -/
theorem c4_run_deterministic (w1 w2 : List (String × ℚ)) (z1 z2 : ℕ → ℚ)
    (ag1 ag2 : List SimAgent) (init1 init2 : EnvironmentState)
    (n1 n2 : ℕ) (sc1 sc2 : String) (st1 st2 : Bool)
    (hw : w1 = w2) (hz : z1 = z2) (ha : ag1 = ag2) (hi : init1 = init2)
    (hn : n1 = n2) (hs : sc1 = sc2) (hst : st1 = st2) :
    runSim w1 z1 ag1 init1 n1 sc1 st1 = runSim w2 z2 ag2 init2 n2 sc2 st2 := by
  subst hw hz ha hi hn hs hst
  rfl

theorem c4_run_deterministic_witness :
    runSim [] (fun _ => 0) [] ENV_DEFAULTS 1 "s" true =
      runSim [] (fun _ => 0) [] ENV_DEFAULTS 1 "s" true :=
  c4_run_deterministic [] [] (fun _ => 0) (fun _ => 0) [] [] ENV_DEFAULTS
    ENV_DEFAULTS 1 1 "s" "s" true true rfl rfl rfl rfl rfl rfl rfl

/-! ## Permutation invariance of the resolver (C7 machinery) -/

theorem perm_eq_of_length_le_one {α : Type} (l1 l2 : List α) (h : l1.Perm l2)
    (hlen : l1.length ≤ 1) : l1 = l2 := by
  cases l1 with
  | nil => exact (h.symm.eq_nil).symm
  | cons a tail =>
    cases tail with
    | nil => exact (List.perm_singleton.mp h.symm).symm
    | cons b t2 => simp at hlen

theorem filter_name_length_le (ps : List AgentProposal) (n : String)
    (hnd : (ps.map (fun p => p.agent_name)).Nodup) :
    (ps.filter (fun p => p.agent_name = n)).length ≤ 1 := by
  induction ps with
  | nil => simp
  | cons p rest ih =>
    rw [List.map_cons, List.nodup_cons] at hnd
    rw [List.filter_cons]
    by_cases hp : p.agent_name = n
    · rw [if_pos (by simp [hp])]
      have hempty : rest.filter (fun q => q.agent_name = n) = [] := by
        rw [List.filter_eq_nil_iff]
        intro q hq hqn
        apply hnd.1
        rw [hp, ← (by simpa using hqn : q.agent_name = n)]
        exact List.mem_map.mpr ⟨q, hq, rfl⟩
      rw [hempty]
      simp
    · rw [if_neg (by simp [hp])]
      exact ih hnd.2

theorem lastWithName_perm (ps1 ps2 : List AgentProposal) (h : ps1.Perm ps2)
    (hnd : (ps1.map (fun p => p.agent_name)).Nodup) (n : String) :
    lastWithName ps1 n = lastWithName ps2 n := by
  unfold lastWithName
  rw [perm_eq_of_length_le_one _ _ (h.filter _) (filter_name_length_le ps1 n hnd)]

theorem mem_sharedKeys (a b : AgentProposal) (k : String) :
    k ∈ sharedKeys a b ↔ hasKey a k = true ∧ hasKey b k = true := by
  unfold sharedKeys
  rw [List.mem_filter, List.mem_dedup, ← hasKey_iff_mem]

theorem sharedKeys_nodup (a b : AgentProposal) : (sharedKeys a b).Nodup :=
  (List.nodup_dedup _).filter _

theorem sharedKeys_perm (a b : AgentProposal) :
    (sharedKeys a b).Perm (sharedKeys b a) := by
  apply (List.perm_ext_iff_of_nodup (sharedKeys_nodup a b) (sharedKeys_nodup b a)).mpr
  intro k
  rw [mem_sharedKeys, mem_sharedKeys, and_comm]

theorem conflictingKeys_perm (a b : AgentProposal) :
    ((sharedKeys a b).filter (fun k => deltaVal a k * deltaVal b k < 0)).Perm
      ((sharedKeys b a).filter (fun k => deltaVal b k * deltaVal a k < 0)) := by
  have hcongr : (sharedKeys b a).filter (fun k => deltaVal b k * deltaVal a k < 0) =
      (sharedKeys b a).filter (fun k => deltaVal a k * deltaVal b k < 0) := by
    apply List.filter_congr
    intro k _
    rw [mul_comm]
  rw [hcongr]
  exact (sharedKeys_perm a b).filter _

theorem isEmpty_eq_of_length_eq {α β : Type} (l1 : List α) (l2 : List β)
    (h : l1.length = l2.length) : l1.isEmpty = l2.isEmpty := by
  cases l1 <;> cases l2 <;> simp_all

theorem pairConflict_isSome_symm (a b : AgentProposal) :
    (pairConflict a b).isSome = (pairConflict b a).isSome := by
  have hlen : (sharedKeys a b).length = (sharedKeys b a).length :=
    (sharedKeys_perm a b).length_eq
  have hclen : ((sharedKeys a b).filter
        (fun k => deltaVal a k * deltaVal b k < 0)).length =
      ((sharedKeys b a).filter
        (fun k => deltaVal b k * deltaVal a k < 0)).length :=
    (conflictingKeys_perm a b).length_eq
  have hemp : (sharedKeys a b).isEmpty = (sharedKeys b a).isEmpty :=
    isEmpty_eq_of_length_eq _ _ hlen
  simp only [pairConflict]
  rw [hemp, hclen, hlen]
  by_cases he : (sharedKeys b a).isEmpty = true
  · simp [he]
  · simp only [Bool.not_eq_true] at he
    rw [he]
    simp only [Bool.false_eq_true, if_false]
    by_cases hs : CONFLICT_THRESHOLD ≤
        (((sharedKeys b a).filter
            (fun k => deltaVal b k * deltaVal a k < 0)).length : ℚ) /
          ((sharedKeys b a).length : ℚ)
    · rw [if_pos hs, if_pos hs]
      rfl
    · rw [if_neg hs, if_neg hs]

theorem pairConflict_names (a b : AgentProposal) (c : ConflictReport)
    (h : pairConflict a b = some c) :
    c.agent_a = a.agent_name ∧ c.agent_b = b.agent_name := by
  simp only [pairConflict] at h
  split at h
  · cases h
  · split at h
    · cases h
      exact ⟨rfl, rfl⟩
    · cases h

theorem mem_detectConflicts_cons (p : AgentProposal) (rest : List AgentProposal)
    (c : ConflictReport) :
    c ∈ detectConflicts (p :: rest) ↔
      (∃ q ∈ rest, pairConflict p q = some c) ∨ c ∈ detectConflicts rest := by
  have hdef : detectConflicts (p :: rest) =
      rest.filterMap (fun q => pairConflict p q) ++ detectConflicts rest := rfl
  rw [hdef, List.mem_append, List.mem_filterMap]

theorem mem_conflictAgentNames (ps : List AgentProposal) (n : String) :
    n ∈ conflictAgentNames ps ↔
      ∃ c ∈ detectConflicts ps, n = c.agent_a ∨ n = c.agent_b := by
  unfold conflictAgentNames
  rw [List.mem_flatMap]
  constructor
  · rintro ⟨c, hc, hn⟩
    refine ⟨c, hc, ?_⟩
    rcases List.mem_cons.mp hn with h | h
    · exact Or.inl h
    · exact Or.inr (List.mem_singleton.mp h)
  · rintro ⟨c, hc, hn⟩
    refine ⟨c, hc, ?_⟩
    rcases hn with rfl | rfl <;> simp

/-- Which names are conflict-penalised is a property of the *set* of
proposals: a name is penalised iff it belongs to some flagged unordered
pair of distinctly-named proposals. -/
theorem mem_conflictAgentNames_iff (ps : List AgentProposal) (n : String) :
    (ps.map (fun p => p.agent_name)).Nodup →
    (n ∈ conflictAgentNames ps ↔
      ∃ a ∈ ps, ∃ b ∈ ps, a.agent_name ≠ b.agent_name ∧
        (pairConflict a b).isSome = true ∧
        (n = a.agent_name ∨ n = b.agent_name)) := by
  induction ps with
  | nil =>
    intro _
    simp [conflictAgentNames, detectConflicts]
  | cons p rest ih =>
    intro hnd
    rw [List.map_cons, List.nodup_cons] at hnd
    have hrest := ih hnd.2
    constructor
    · intro hmem
      obtain ⟨c, hc, hn⟩ := (mem_conflictAgentNames _ n).mp hmem
      rcases (mem_detectConflicts_cons p rest c).mp hc with ⟨q, hq, hpc⟩ | hcrest
      · have hnames := pairConflict_names p q c hpc
        have hne : p.agent_name ≠ q.agent_name := by
          intro heq
          exact hnd.1 (heq ▸ List.mem_map.mpr ⟨q, hq, rfl⟩)
        refine ⟨p, List.mem_cons_self p rest, q, List.mem_cons_of_mem p hq,
          hne, by rw [hpc]; rfl, ?_⟩
        rcases hn with rfl | rfl
        · exact Or.inl hnames.1
        · exact Or.inr hnames.2
      · obtain ⟨a, ha, b, hb, hne, hsome, hn'⟩ :=
          hrest.mp ((mem_conflictAgentNames rest n).mpr ⟨c, hcrest, hn⟩)
        exact ⟨a, List.mem_cons_of_mem p ha, b, List.mem_cons_of_mem p hb,
          hne, hsome, hn'⟩
    · rintro ⟨a, ha, b, hb, hne, hsome, hn⟩
      rcases List.mem_cons.mp ha with rfl | ha' <;>
        rcases List.mem_cons.mp hb with heqb | hb'
      · exact absurd (heqb ▸ rfl) hne
      · obtain ⟨c, hc⟩ := Option.isSome_iff_exists.mp hsome
        have hnames := pairConflict_names a b c hc
        apply (mem_conflictAgentNames _ n).mpr
        refine ⟨c, (mem_detectConflicts_cons a rest c).mpr (Or.inl ⟨b, hb', hc⟩), ?_⟩
        rcases hn with rfl | rfl
        · exact Or.inl hnames.1.symm
        · exact Or.inr hnames.2.symm
      · subst heqb
        have hsome' : (pairConflict b a).isSome = true :=
          (pairConflict_isSome_symm a b) ▸ hsome
        obtain ⟨c, hc⟩ := Option.isSome_iff_exists.mp hsome'
        have hnames := pairConflict_names b a c hc
        apply (mem_conflictAgentNames _ n).mpr
        refine ⟨c, (mem_detectConflicts_cons b rest c).mpr (Or.inl ⟨a, ha', hc⟩), ?_⟩
        rcases hn with rfl | rfl
        · exact Or.inr hnames.2.symm
        · exact Or.inl hnames.1.symm
      · have : n ∈ conflictAgentNames rest :=
          hrest.mpr ⟨a, ha', b, hb', hne, hsome, hn⟩
        obtain ⟨c, hc, hn'⟩ := (mem_conflictAgentNames rest n).mp this
        exact (mem_conflictAgentNames _ n).mpr
          ⟨c, (mem_detectConflicts_cons p rest c).mpr (Or.inr hc), hn'⟩

theorem conflictAgentNames_perm (ps1 ps2 : List AgentProposal)
    (h : ps1.Perm ps2) (hnd : (ps1.map (fun p => p.agent_name)).Nodup)
    (n : String) :
    n ∈ conflictAgentNames ps1 ↔ n ∈ conflictAgentNames ps2 := by
  have hnd2 : (ps2.map (fun p => p.agent_name)).Nodup :=
    ((h.map _).nodup_iff).mp hnd
  rw [mem_conflictAgentNames_iff ps1 n hnd, mem_conflictAgentNames_iff ps2 n hnd2]
  constructor <;> rintro ⟨a, ha, b, hb, hne, hsome, hn⟩
  · exact ⟨a, h.mem_iff.mp ha, b, h.mem_iff.mp hb, hne, hsome, hn⟩
  · exact ⟨a, h.mem_iff.mpr ha, b, h.mem_iff.mpr hb, hne, hsome, hn⟩

theorem effectiveWeight_perm (w : List (String × ℚ))
    (ps1 ps2 : List AgentProposal) (h : ps1.Perm ps2)
    (hnd : (ps1.map (fun p => p.agent_name)).Nodup) (n : String) :
    effectiveWeight w ps1 n = effectiveWeight w ps2 n := by
  unfold effectiveWeight
  rw [lastWithName_perm ps1 ps2 h hnd n]
  cases lastWithName ps2 n with
  | none => rfl
  | some p =>
    simp only []
    have hca := conflictAgentNames_perm ps1 ps2 h hnd n
    by_cases hmem : n ∈ conflictAgentNames ps1
    · rw [if_pos hmem, if_pos (hca.mp hmem)]
    · rw [if_neg hmem, if_neg (fun hc => hmem (hca.mpr hc))]

theorem keyWeightSum_perm (w : List (String × ℚ)) (ps1 ps2 : List AgentProposal)
    (h : ps1.Perm ps2) (hnd : (ps1.map (fun p => p.agent_name)).Nodup)
    (k : String) :
    keyWeightSum (effectiveWeight w ps1) ps1 k =
      keyWeightSum (effectiveWeight w ps2) ps2 k := by
  unfold keyWeightSum
  rw [List.map_congr_left
    (fun p _ => effectiveWeight_perm w ps1 ps2 h hnd p.agent_name)]
  exact ((h.filter _).map _).sum_eq

theorem keyWeightedSum_perm (w : List (String × ℚ))
    (ps1 ps2 : List AgentProposal) (h : ps1.Perm ps2)
    (hnd : (ps1.map (fun p => p.agent_name)).Nodup) (k : String) :
    keyWeightedSum (effectiveWeight w ps1) ps1 k =
      keyWeightedSum (effectiveWeight w ps2) ps2 k := by
  unfold keyWeightedSum
  rw [List.map_congr_left (fun p _ => by
    rw [effectiveWeight_perm w ps1 ps2 h hnd p.agent_name])]
  exact ((h.filter _).map _).sum_eq

theorem totalWeight_perm (w : List (String × ℚ)) (ps1 ps2 : List AgentProposal)
    (h : ps1.Perm ps2) (hnd : (ps1.map (fun p => p.agent_name)).Nodup) :
    totalWeight (effectiveWeight w ps1) ps1 =
      totalWeight (effectiveWeight w ps2) ps2 := by
  unfold totalWeight
  rw [List.map_congr_left
    (fun n _ => effectiveWeight_perm w ps1 ps2 h hnd n)]
  exact (((h.map _).dedup).map _).sum_eq

theorem negTotal_perm (w : List (String × ℚ)) (ps1 ps2 : List AgentProposal)
    (h : ps1.Perm ps2) (hnd : (ps1.map (fun p => p.agent_name)).Nodup) :
    negTotal w ps1 = negTotal w ps2 := by
  unfold negTotal
  rw [totalWeight_perm w ps1 ps2 h hnd]

/-- C7 counterexample.  The claim says `negotiate` produces the same output
on any permutation of the proposals.  Swapping two conflicting proposals
changes the output value: the `conflicts` entry swaps `agent_a`/`agent_b`
and the retained `proposals` list follows the input order. -/
theorem c7_counterexample :
    negotiate [] [cPropUp, cPropDown] ≠ negotiate [] [cPropDown, cPropUp] := by
  intro h
  have hp := congrArg ConsensusResult.proposals h
  have h1 : (negotiate [] [cPropUp, cPropDown]).proposals =
      [cPropUp, cPropDown] := rfl
  have h2 : (negotiate [] [cPropDown, cPropUp]).proposals =
      [cPropDown, cPropUp] := rfl
  rw [h1, h2] at hp
  have hhead : cPropUp = cPropDown := by
    injection hp
  exact absurd (congrArg AgentProposal.agent_name hhead) (by decide)

/-- C7 amended.  For proposals with pairwise-distinct agent names, the
resolver's numeric output is invariant to proposal ordering: any permutation
yields the same merged deltas (as a key-value mapping), the same confidence
index, and the same vote shares (as a name-value mapping).  The `conflicts`
list, the retained `proposals` list and (in the source) the textual summary
follow the input order, so the full `ConsensusResult` value is not
order-invariant; with duplicate agent names even the merged deltas can
change, because the effective-weight dict keeps only the last proposal per
name. -/
theorem c7_negotiate_perm_invariant (w : List (String × ℚ))
    (ps1 ps2 : List AgentProposal) (hperm : ps1.Perm ps2)
    (hnd : (ps1.map (fun p => p.agent_name)).Nodup) :
    (∀ k, alookup (negotiate w ps1).final_deltas k =
          alookup (negotiate w ps2).final_deltas k) ∧
    (negotiate w ps1).confidence_index = (negotiate w ps2).confidence_index ∧
    (∀ n, alookup (negotiate w ps1).agent_votes n =
          alookup (negotiate w ps2).agent_votes n) := by
  refine ⟨fun k => ?_, ?_, fun n => ?_⟩
  · rw [negotiate_final_deltas, negotiate_final_deltas,
      alookup_finalDeltasOf, alookup_finalDeltasOf,
      keyWeightSum_perm w ps1 ps2 hperm hnd k,
      keyWeightedSum_perm w ps1 ps2 hperm hnd k]
  · rw [negotiate_confidence_index, negotiate_confidence_index,
      negTotal_perm w ps1 ps2 hperm hnd,
      List.map_congr_left (fun p (_ : p ∈ ps1) => by
        rw [effectiveWeight_perm w ps1 ps2 hperm hnd p.agent_name]),
      (hperm.map _).sum_eq]
  · rw [negotiate_agent_votes, negotiate_agent_votes,
      alookup_map_keyed, alookup_map_keyed]
    have hmem : (n ∈ distinctNames ps1) ↔ (n ∈ distinctNames ps2) := by
      unfold distinctNames
      rw [List.mem_dedup, List.mem_dedup, (hperm.map _).mem_iff]
    have hval : pyRound 4 (effectiveWeight w ps1 n / negTotal w ps1) =
        pyRound 4 (effectiveWeight w ps2 n / negTotal w ps2) := by
      rw [effectiveWeight_perm w ps1 ps2 hperm hnd n,
        negTotal_perm w ps1 ps2 hperm hnd]
    by_cases hm : n ∈ distinctNames ps1
    · rw [if_pos hm, if_pos (hmem.mp hm), hval]
    · rw [if_neg hm, if_neg (fun hc => hm (hmem.mpr hc))]

theorem c7_negotiate_perm_invariant_witness :
    (∀ k, alookup (negotiate [] [cPropUp, cPropDown]).final_deltas k =
          alookup (negotiate [] [cPropDown, cPropUp]).final_deltas k) ∧
    (negotiate [] [cPropUp, cPropDown]).confidence_index =
      (negotiate [] [cPropDown, cPropUp]).confidence_index ∧
    (∀ n, alookup (negotiate [] [cPropUp, cPropDown]).agent_votes n =
          alookup (negotiate [] [cPropDown, cPropUp]).agent_votes n) :=
  c7_negotiate_perm_invariant [] [cPropUp, cPropDown] [cPropDown, cPropUp]
    (List.Perm.swap cPropDown cPropUp []) (by decide)

end AgentSphere
